import Mathlib

/-!
Verification development for `instacomments.py`: a shallow embedding of the
comment-fetching pipeline (pagination loop, like-count filter, deduplication,
username projection, CSV serialization, exit codes) together with theorems
about the embedded definitions.

Machine integers are modelled as `Int`/`Nat` (Python integers are unbounded),
absent dictionary keys as `Option`, and the JSON response shapes as structures
with `Option` fields.
-/

/-- Domain record for one reply, as produced by the reply branch of
`parse_comment_node` (src/instacomments.py lines 93-101): every field is read
defensively with `.get`, so every field may be absent. -/
structure ReplyRecord where
  id : Option String
  username : Option String
  text : Option String
  like_count : Option Int
  created_at : Option Int
deriving DecidableEq, Repr

/-- Domain record for one parent comment, as produced by `parse_comment_node`
(src/instacomments.py lines 70-104).  The `replies` key is present in the
dictionary exactly when `include_replies` was requested, hence `Option`. -/
structure CommentRecord where
  id : Option String
  username : Option String
  text : Option String
  like_count : Option Int
  created_at : Option Int
  replies : Option (List ReplyRecord)
deriving DecidableEq, Repr

/-- Raw reply node of the response (`edge_threaded_comments.edges[].node`):
all fields optional, `owner_username` models `node.get("owner", \x7b\x7d).get("username")`. -/
structure RawReplyNode where
  id : Option String
  owner_username : Option String
  text : Option String
  like_count : Option Int
  created_at : Option Int
deriving DecidableEq, Repr

/-- Raw parent comment node of the response.  `threaded` models
`node.get("edge_threaded_comments", \x7b\x7d).get("edges", [])` with the trivial
`edge.get("node", \x7b\x7d)` wrapper removed: an absent container reads as `[]`. -/
structure RawNode where
  id : Option String
  owner_username : Option String
  text : Option String
  like_count : Option Int
  created_at : Option Int
  threaded : List RawReplyNode
deriving DecidableEq, Repr

/-- `page_info` object: both fields are read defensively in the source
(src/instacomments.py lines 151-153), so both are optional. -/
structure PageInfoRaw where
  has_next_page : Option Bool
  end_cursor : Option String
deriving DecidableEq, Repr

/-- The `edge_media_to_parent_comment` object.  `edges` models
`edge_info.get("edges", [])` (absent reads as `[]`); `page_info` models
`edge_info.get("page_info", \x7b\x7d)` (absent reads as empty). -/
structure EdgeInfoRaw where
  edges : List RawNode
  page_info : Option PageInfoRaw
deriving DecidableEq, Repr

/-- The `shortcode_media` object.  `edge_media_to_parent_comment = none` models
the key being absent, in which case the direct indexing
`media["edge_media_to_parent_comment"]` (line 136) raises `KeyError`. -/
structure MediaRaw where
  edge_media_to_parent_comment : Option EdgeInfoRaw
deriving DecidableEq, Repr

/-- One parsed GraphQL response body.  `shortcode_media = none` models
`data.get("data", \x7b\x7d).get("shortcode_media")` being falsy (line 131-132). -/
structure GraphqlResponse where
  shortcode_media : Option MediaRaw
deriving DecidableEq, Repr

/-- Field mapping for one raw reply node (src/instacomments.py lines 93-100). -/
def parse_reply_node (rnode : RawReplyNode) : ReplyRecord :=
  { id := rnode.id
    username := rnode.owner_username
    text := rnode.text
    like_count := rnode.like_count
    created_at := rnode.created_at }

/-- `parse_comment_node` (src/instacomments.py lines 70-104): copy the five
scalar fields verbatim; when `include_replies` is set, also map the nested
reply nodes in order into the `replies` key. -/
def parse_comment_node (node : RawNode) (include_replies : Bool) : CommentRecord :=
  { id := node.id
    username := node.owner_username
    text := node.text
    like_count := node.like_count
    created_at := node.created_at
    replies := if include_replies then some (node.threaded.map parse_reply_node) else none }

/-- `item.get("like_count") or 0` (line 141): Python `or` yields `0` both for
an absent key and for a stored `0`, so this is exactly `Option.getD 0`. -/
def like_count_or_zero (item : CommentRecord) : Int :=
  item.like_count.getD 0

/-- Python truthiness of `max_comments` in `max_comments and ...`
(lines 144 and 152): `None` and `0` are falsy, every other integer is truthy. -/
def max_comments_truthy (max_comments : Option Nat) : Bool :=
  match max_comments with
  | none => false
  | some m => decide (m ≠ 0)

/-- The guard `max_comments and len(results) >= max_comments`
(lines 144 and 152). -/
def cap_reached (max_comments : Option Nat) (len : Nat) : Bool :=
  match max_comments with
  | none => false
  | some m => decide (m ≠ 0) && decide (m ≤ len)

/-- The inner `for edge in edges` loop of `fetch_parent_comments`
(src/instacomments.py lines 138-146): parse each node, append it when it meets
the minimum-likes threshold, and after every node stop (discarding the rest of
the page) when the configured cap is reached. -/
def process_page_edges (max_comments : Option Nat) (min_likes : Int) (include_replies : Bool) :
    List RawNode → List CommentRecord → List CommentRecord
  | [], results => results
  | node :: rest, results =>
    let item := parse_comment_node node include_replies
    let results' := if min_likes ≤ like_count_or_zero item then results ++ [item] else results
    if cap_reached max_comments results'.length then results'
    else process_page_edges max_comments min_likes include_replies rest results'

/-- The `while has_next` loop of `fetch_parent_comments`
(src/instacomments.py lines 123-158), with the HTTP layer replaced by a list
of response bodies consumed in request order.  Returns the collected records
together with the number of page requests issued.  A missing
`shortcode_media` (line 131-134) or a `KeyError` on
`media["edge_media_to_parent_comment"]` (lines 136, 147-149) breaks out of the
loop, returning what was collected.  Otherwise the page's nodes are processed
and `has_next` is recomputed from `page_info` and the cap (line 152). -/
def fetch_go (max_comments : Option Nat) (min_likes : Int) (include_replies : Bool) :
    List GraphqlResponse → List CommentRecord → Nat → List CommentRecord × Nat
  | [], results, requests => (results, requests)
  | resp :: rest, results, requests =>
    match resp.shortcode_media with
    | none => (results, requests + 1)
    | some media =>
      match media.edge_media_to_parent_comment with
      | none => (results, requests + 1)
      | some edge_info =>
        let results' :=
          process_page_edges max_comments min_likes include_replies edge_info.edges results
        let has_next_raw := (edge_info.page_info.bind PageInfoRaw.has_next_page).getD false
        if has_next_raw && !cap_reached max_comments results'.length then
          fetch_go max_comments min_likes include_replies rest results' (requests + 1)
        else (results', requests + 1)

/-- `fetch_parent_comments` (src/instacomments.py lines 107-159): run the page
loop from an empty result list.  The network is abstracted as the list of
response bodies the server would return in order. -/
def fetch_parent_comments (max_comments : Option Nat) (min_likes : Int)
    (include_replies : Bool) (pages : List GraphqlResponse) : List CommentRecord × Nat :=
  fetch_go max_comments min_likes include_replies pages [] 0

/-- The records of one page that pass the minimum-likes filter, in page
order: specification-side description of what lines 138-142 append. -/
def qualifying_records (min_likes : Int) (include_replies : Bool)
    (edges : List RawNode) : List CommentRecord :=
  (edges.map (fun n => parse_comment_node n include_replies)).filter
    (fun it => decide (min_likes ≤ like_count_or_zero it))

/-- Convenience: a one-page response body with the given nodes and
continuation info. -/
def mk_page (edges : List RawNode) (has_next : Bool) (cursor : Option String) :
    GraphqlResponse :=
  ⟨some ⟨some ⟨edges, some ⟨some has_next, cursor⟩⟩⟩⟩

/-- `dedupe_by_key`'s loop (src/instacomments.py lines 184-194), with the
`seen` set modelled as the list of keys added so far: an item whose key is
`None` or already seen is skipped, otherwise it is kept and its key recorded. -/
def dedupe_go (key : CommentRecord → Option String) (seen : List String) :
    List CommentRecord → List CommentRecord
  | [] => []
  | it :: rest =>
    match key it with
    | none => dedupe_go key seen rest
    | some k =>
      if k ∈ seen then dedupe_go key seen rest
      else it :: dedupe_go key (k :: seen) rest

/-- `dedupe_by_key(items, key)` (src/instacomments.py lines 184-194). -/
def dedupe_by_key (items : List CommentRecord) (key : CommentRecord → Option String) :
    List CommentRecord :=
  dedupe_go key [] items

/-- The key function `it.get("id")` used by `main` via
`dedupe_by_key(comments, key="id")` (line 371). -/
def key_id (c : CommentRecord) : Option String :=
  c.id

/-- The detailed-mode deduplication step of `main`
(src/instacomments.py lines 368-371): dedupe by id when enabled, otherwise
pass the records through unchanged. -/
def detailed_comments (dedupe : Bool) (comments : List CommentRecord) : List CommentRecord :=
  if dedupe then dedupe_by_key comments key_id else comments

/-- `to_usernames`'s loop (src/instacomments.py lines 162-171): keep a
username only when it is truthy (present and non-empty) and not yet seen. -/
def to_usernames_go (seen : List String) : List CommentRecord → List String
  | [] => []
  | c :: rest =>
    match c.username with
    | none => to_usernames_go seen rest
    | some u =>
      if u = "" then to_usernames_go seen rest
      else if u ∈ seen then to_usernames_go seen rest
      else u :: to_usernames_go (u :: seen) rest

/-- `to_usernames` (src/instacomments.py lines 162-171). -/
def to_usernames (comments : List CommentRecord) : List String :=
  to_usernames_go [] comments

/-- `usernames_with_duplicates` (src/instacomments.py lines 174-181): keep
every truthy username, duplicates and order preserved. -/
def usernames_with_duplicates (comments : List CommentRecord) : List String :=
  comments.filterMap (fun c =>
    match c.username with
    | none => none
    | some u => if u = "" then none else some u)

/-- The comparison underlying `usernames_payload.sort(key=lambda s: s.lower())`
(line 381): compare lowercased strings lexicographically. -/
def username_le (a b : String) : Bool :=
  decide (a.toLower ≤ b.toLower)

/-- The username payload preparation of `main`
(src/instacomments.py lines 374-381): choose the deduplicated or raw
projection, then sort it case-insensitively (a stable sort, as `list.sort`). -/
def usernames_payload (dedupe : Bool) (comments : List CommentRecord) : List String :=
  (if dedupe then to_usernames comments else usernames_with_duplicates comments).mergeSort
    username_le

/-- Python string `.replace("\n", " ")` for the single-character pattern:
replace each newline character by a space (line 238). -/
def newline_to_space (s : String) : String :=
  ⟨s.data.map (fun ch => if ch = '\n' then ' ' else ch)⟩

/-- Python `str.isspace` characters relevant to `.strip()`. -/
def py_space (ch : Char) : Bool :=
  ch = ' ' || ch = '\t' || ch = '\n' || ch = '\r' || ch = '\x0b' || ch = '\x0c'

/-- Python `.strip()` (line 238): drop whitespace from both ends. -/
def py_strip (s : String) : String :=
  ⟨((s.data.dropWhile py_space).reverse.dropWhile py_space).reverse⟩

/-- The `text` cell of a detailed CSV row:
`(c.get("text") or "").replace("\n", " ").strip()` (src/instacomments.py
line 238).  Python `or ""` maps both an absent text and an empty text to `""`,
i.e. `Option.getD ""`. -/
def csv_text_cell (c : CommentRecord) : String :=
  py_strip (newline_to_space (c.text.getD ""))

/-- The `reply_count` cell of a detailed CSV row:
`len(c.get("replies", [])) if isinstance(c.get("replies"), list) else 0`
(src/instacomments.py line 234): the length of the replies list when one is
present, otherwise `0`. -/
def csv_reply_count (c : CommentRecord) : Nat :=
  match c.replies with
  | some rs => rs.length
  | none => 0

/-- The three fatal-failure classes named by the error-handling design. -/
inductive FailureClass where
  | invalidInput
  | runtimeNetwork
  | outputWrite
deriving DecidableEq, Repr

/-- `sys.exit(2)` on an invalid URL (src/instacomments.py line 347). -/
def invalid_url_exit_code : Nat := 2

/-- `sys.exit(2)` on missing environment variables (line 259). -/
def missing_env_exit_code : Nat := 2

/-- `sys.exit(1)` on a non-200 HTTP status (line 62). -/
def http_error_exit_code : Nat := 1

/-- `sys.exit(1)` on a non-JSON response body (line 67). -/
def non_json_exit_code : Nat := 1

/-- `sys.exit(1)` on an `OSError` while writing the output file (line 393). -/
def write_failure_exit_code : Nat := 1

/-- Exit status of each fatal-failure class, read off the `sys.exit` sites. -/
def class_exit_code : FailureClass → Nat
  | .invalidInput => invalid_url_exit_code
  | .runtimeNetwork => http_error_exit_code
  | .outputWrite => write_failure_exit_code

/-- Sample records used to instantiate universally quantified theorems. -/
def sample_a : CommentRecord :=
  { id := some "c1", username := some "alice", text := some "hi"
    like_count := some 3, created_at := some 10, replies := none }

/-- A second record sharing `sample_a`'s id. -/
def sample_b : CommentRecord :=
  { id := some "c1", username := some "bob", text := some "yo"
    like_count := some 1, created_at := some 11, replies := none }

/-- A record with no id at all. -/
def sample_no_id : CommentRecord :=
  { id := none, username := some "carol", text := none
    like_count := none, created_at := none, replies := none }

theorem dedupe_go_sublist (key : CommentRecord → Option String) :
    ∀ (l : List CommentRecord) (seen : List String), (dedupe_go key seen l).Sublist l := by
  intro l
  induction l with
  | nil => intro seen; simp [dedupe_go]
  | cons it rest ih =>
    intro seen
    cases hk : key it with
    | none =>
      simp only [dedupe_go, hk]
      exact (ih seen).cons it
    | some k =>
      by_cases hs : k ∈ seen
      · simp only [dedupe_go, hk, if_pos hs]
        exact (ih seen).cons it
      · simp only [dedupe_go, hk, if_neg hs]
        exact (ih (k :: seen)).cons₂ it

theorem dedupe_go_drop (key : CommentRecord → Option String) (v : String) :
    ∀ (xs : List CommentRecord) (seen : List String) (r2 : CommentRecord)
      (zs : List CommentRecord),
      (v ∈ seen ∨ ∃ r1 ∈ xs, key r1 = some v) → key r2 = some v →
      dedupe_go key seen (xs ++ r2 :: zs) = dedupe_go key seen (xs ++ zs) := by
  intro xs
  induction xs with
  | nil =>
    intro seen r2 zs h h2
    rcases h with h | ⟨r1, hr1, _⟩
    · simp only [List.nil_append, dedupe_go, h2, if_pos h]
    · exact absurd hr1 (List.not_mem_nil r1)
  | cons x xs ih =>
    intro seen r2 zs h h2
    cases hx : key x with
    | none =>
      simp only [List.cons_append, dedupe_go, hx]
      apply ih seen r2 zs ?_ h2
      rcases h with h | ⟨r1, hr1, hkr1⟩
      · exact Or.inl h
      · rcases List.mem_cons.mp hr1 with rfl | hr1'
        · rw [hx] at hkr1; cases hkr1
        · exact Or.inr ⟨r1, hr1', hkr1⟩
    | some k =>
      by_cases hs : k ∈ seen
      · simp only [List.cons_append, dedupe_go, hx, if_pos hs]
        apply ih seen r2 zs ?_ h2
        rcases h with h | ⟨r1, hr1, hkr1⟩
        · exact Or.inl h
        · rcases List.mem_cons.mp hr1 with rfl | hr1'
          · rw [hx] at hkr1
            obtain rfl : k = v := by injection hkr1
            exact Or.inl hs
          · exact Or.inr ⟨r1, hr1', hkr1⟩
      · simp only [List.cons_append, dedupe_go, hx, if_neg hs]
        congr 1
        apply ih (k :: seen) r2 zs ?_ h2
        rcases h with h | ⟨r1, hr1, hkr1⟩
        · exact Or.inl (List.mem_cons_of_mem k h)
        · rcases List.mem_cons.mp hr1 with rfl | hr1'
          · rw [hx] at hkr1
            obtain rfl : k = v := by injection hkr1
            exact Or.inl (List.mem_cons_self k seen)
          · exact Or.inr ⟨r1, hr1', hkr1⟩

theorem mem_dedupe_go (key : CommentRecord → Option String) :
    ∀ (l : List CommentRecord) (seen : List String) (x : CommentRecord),
      x ∈ dedupe_go key seen l → ∃ k, key x = some k ∧ k ∉ seen := by
  intro l
  induction l with
  | nil => intro seen x hx; simp [dedupe_go] at hx
  | cons it rest ih =>
    intro seen x hx
    cases hk : key it with
    | none =>
      simp only [dedupe_go, hk] at hx
      exact ih seen x hx
    | some k =>
      by_cases hs : k ∈ seen
      · simp only [dedupe_go, hk, if_pos hs] at hx
        exact ih seen x hx
      · simp only [dedupe_go, hk, if_neg hs] at hx
        rcases List.mem_cons.mp hx with rfl | hx'
        · exact ⟨k, hk, hs⟩
        · obtain ⟨k', hk', hk's⟩ := ih (k :: seen) x hx'
          exact ⟨k', hk', fun hmem => hk's (List.mem_cons_of_mem k hmem)⟩

theorem nodup_keys_dedupe_go (key : CommentRecord → Option String) :
    ∀ (l : List CommentRecord) (seen : List String),
      ((dedupe_go key seen l).map key).Nodup := by
  intro l
  induction l with
  | nil => intro seen; simp [dedupe_go]
  | cons it rest ih =>
    intro seen
    cases hk : key it with
    | none =>
      simp only [dedupe_go, hk]
      exact ih seen
    | some k =>
      by_cases hs : k ∈ seen
      · simp only [dedupe_go, hk, if_pos hs]
        exact ih seen
      · simp only [dedupe_go, hk, if_neg hs, List.map_cons, List.nodup_cons]
        constructor
        · intro hmem
          obtain ⟨y, hy, hky⟩ := List.mem_map.mp hmem
          obtain ⟨k', hk', hk's⟩ := mem_dedupe_go key rest (k :: seen) y hy
          rw [hk'] at hky
          obtain rfl : k' = k := by injection hky
          exact hk's (List.mem_cons_self _ _)
        · exact ih (k :: seen)

theorem dedupe_go_eq_self (key : CommentRecord → Option String) :
    ∀ (l : List CommentRecord) (seen : List String),
      (∀ x ∈ l, ∃ k, key x = some k ∧ k ∉ seen) → (l.map key).Nodup →
      dedupe_go key seen l = l := by
  intro l
  induction l with
  | nil => intro seen _ _; rfl
  | cons it rest ih =>
    intro seen hall hnd
    obtain ⟨k, hk, hks⟩ := hall it (List.mem_cons_self it rest)
    simp only [dedupe_go, hk, if_neg hks]
    congr 1
    simp only [List.map_cons, List.nodup_cons] at hnd
    apply ih (k :: seen) ?_ hnd.2
    intro x hx
    obtain ⟨k', hk', hk's⟩ := hall x (List.mem_cons_of_mem it hx)
    refine ⟨k', hk', ?_⟩
    intro hmem
    rcases List.mem_cons.mp hmem with rfl | hmem'
    · exact hnd.1 (by rw [hk, ← hk']; exact List.mem_map_of_mem key hx)
    · exact hk's hmem'

theorem first_occurrence_mem_dedupe_go (key : CommentRecord → Option String) (v : String) :
    ∀ (xs : List CommentRecord) (seen : List String) (r : CommentRecord)
      (zs : List CommentRecord),
      key r = some v → v ∉ seen → (∀ y ∈ xs, key y ≠ some v) →
      r ∈ dedupe_go key seen (xs ++ r :: zs) := by
  intro xs
  induction xs with
  | nil =>
    intro seen r zs hr hseen _
    simp only [List.nil_append, dedupe_go, hr, if_neg hseen]
    exact List.mem_cons_self r _
  | cons x xs ih =>
    intro seen r zs hr hseen hxs
    cases hx : key x with
    | none =>
      simp only [List.cons_append, dedupe_go, hx]
      exact ih seen r zs hr hseen (fun y hy => hxs y (List.mem_cons_of_mem x hy))
    | some k =>
      by_cases hs : k ∈ seen
      · simp only [List.cons_append, dedupe_go, hx, if_pos hs]
        exact ih seen r zs hr hseen (fun y hy => hxs y (List.mem_cons_of_mem x hy))
      · simp only [List.cons_append, dedupe_go, hx, if_neg hs]
        apply List.mem_cons_of_mem
        apply ih (k :: seen) r zs hr ?_ (fun y hy => hxs y (List.mem_cons_of_mem x hy))
        intro hmem
        rcases List.mem_cons.mp hmem with rfl | hmem'
        · exact hxs x (List.mem_cons_self x xs) (by rw [hx])
        · exact hseen hmem'

/-- Claim C6: in detailed mode with deduplication enabled, a later record
sharing the id of an earlier one is dropped (the result is the same as if it
were absent), the surviving records keep their relative order (the output is a
sublist of the input), the first record carrying a given id survives, and with
deduplication disabled the sequence passes through unchanged. -/
theorem claim_c6_dedupe_detailed (xs zs l : List CommentRecord) (r2 : CommentRecord)
    (v : String) (h1 : ∃ r1 ∈ xs, key_id r1 = some v) (h2 : key_id r2 = some v) :
    detailed_comments true (xs ++ r2 :: zs) = detailed_comments true (xs ++ zs)
    ∧ (detailed_comments true l).Sublist l
    ∧ detailed_comments false l = l
    ∧ ∀ ws ys r1, l = ws ++ r1 :: ys → key_id r1 = some v →
        (∀ y ∈ ws, key_id y ≠ some v) → r1 ∈ detailed_comments true l := by
  refine ⟨?_, ?_, rfl, ?_⟩
  · show dedupe_go key_id [] (xs ++ r2 :: zs) = dedupe_go key_id [] (xs ++ zs)
    exact dedupe_go_drop key_id v xs [] r2 zs (Or.inr h1) h2
  · show (dedupe_go key_id [] l).Sublist l
    exact dedupe_go_sublist key_id l []
  · intro ws ys r1 hl hr1 hws
    subst hl
    show r1 ∈ dedupe_go key_id [] (ws ++ r1 :: ys)
    exact first_occurrence_mem_dedupe_go key_id v ws [] r1 ys hr1 (List.not_mem_nil v) hws

/-- Witness for C6 at concrete records sharing id `"c1"`. -/
theorem claim_c6_dedupe_detailed_witness :
    detailed_comments true [sample_a, sample_b] = detailed_comments true [sample_a]
    ∧ sample_a ∈ detailed_comments true [sample_a, sample_b] := by
  constructor
  · exact (claim_c6_dedupe_detailed [sample_a] [] [sample_a, sample_b] sample_b "c1"
      ⟨sample_a, List.mem_cons_self sample_a [], rfl⟩ rfl).1
  · exact (claim_c6_dedupe_detailed [sample_a] [] [sample_a, sample_b] sample_b "c1"
      ⟨sample_a, List.mem_cons_self sample_a [], rfl⟩ rfl).2.2.2 [] [sample_b] sample_a rfl rfl
      (fun y hy => absurd hy (List.not_mem_nil y))

/-- Claim C7: deduplication by id is idempotent: applying `dedupe_by_key`
with the id key twice yields the same sequence as applying it once. -/
theorem claim_c7_dedupe_idempotent (l : List CommentRecord) :
    dedupe_by_key (dedupe_by_key l key_id) key_id = dedupe_by_key l key_id := by
  show dedupe_go key_id [] (dedupe_go key_id [] l) = dedupe_go key_id [] l
  apply dedupe_go_eq_self key_id (dedupe_go key_id [] l) []
  · intro x hx
    obtain ⟨k, hk, _⟩ := mem_dedupe_go key_id l [] x hx
    exact ⟨k, hk, List.not_mem_nil k⟩
  · exact nodup_keys_dedupe_go key_id l []

/-- Claim C10 (implicit): `dedupe_by_key` drops every item whose key is
absent, so in detailed mode with deduplication enabled a record without an id
is removed from the output altogether, while with deduplication disabled it is
kept (the sequence passes through unchanged). -/
theorem claim_c10_none_id_dropped (l : List CommentRecord) (r : CommentRecord)
    (h : r.id = none) :
    r ∉ detailed_comments true l ∧ detailed_comments false l = l := by
  constructor
  · intro hr
    have hr' : r ∈ dedupe_go key_id [] l := hr
    obtain ⟨k, hk, _⟩ := mem_dedupe_go key_id l [] r hr'
    rw [key_id, h] at hk
    cases hk
  · rfl

/-- Witness for C10 at a concrete id-less record. -/
theorem claim_c10_none_id_dropped_witness :
    sample_no_id ∉ detailed_comments true [sample_no_id]
    ∧ detailed_comments false [sample_no_id] = [sample_no_id] :=
  claim_c10_none_id_dropped [sample_no_id] sample_no_id rfl

/-- A raw node whose parsed record has 2 likes. -/
def sample_node : RawNode :=
  { id := some "n1", owner_username := some "alice", text := some "hi"
    like_count := some 2, created_at := some 5, threaded := [] }

/-- A one-page response body carrying `sample_node` and no continuation. -/
def capless_page : GraphqlResponse := mk_page [sample_node] false none

/-- A response body with `shortcode_media` missing. -/
def missing_page : GraphqlResponse := ⟨none⟩

theorem cap_reached_some_iff (m len : Nat) (hm : 0 < m) :
    cap_reached (some m) len = true ↔ m ≤ len := by
  simp only [cap_reached, Bool.and_eq_true, decide_eq_true_eq]
  omega

theorem mem_process_page_edges (max_comments : Option Nat) (min_likes : Int)
    (include_replies : Bool) :
    ∀ (edges : List RawNode) (results : List CommentRecord) (x : CommentRecord),
      x ∈ process_page_edges max_comments min_likes include_replies edges results →
      x ∈ results ∨ min_likes ≤ like_count_or_zero x := by
  intro edges
  induction edges with
  | nil => intro results x hx; exact Or.inl hx
  | cons node rest ih =>
    intro results x hx
    simp only [process_page_edges] at hx
    by_cases hq : min_likes ≤ like_count_or_zero (parse_comment_node node include_replies)
    · simp only [if_pos hq] at hx
      have hsplit : x ∈ results ++ [parse_comment_node node include_replies] →
          x ∈ results ∨ min_likes ≤ like_count_or_zero x := by
        intro hmem
        rcases List.mem_append.mp hmem with hmem | hmem
        · exact Or.inl hmem
        · rw [List.mem_singleton.mp hmem]
          exact Or.inr hq
      by_cases hc : cap_reached max_comments (results ++ [parse_comment_node node include_replies]).length = true
      · rw [if_pos hc] at hx
        exact hsplit hx
      · rw [if_neg hc] at hx
        rcases ih (results ++ [parse_comment_node node include_replies]) x hx with hmem | hlike
        · exact hsplit hmem
        · exact Or.inr hlike
    · simp only [if_neg hq] at hx
      by_cases hc : cap_reached max_comments results.length = true
      · rw [if_pos hc] at hx
        exact Or.inl hx
      · rw [if_neg hc] at hx
        exact ih results x hx

theorem process_page_edges_closed (m : Nat) (min_likes : Int) (include_replies : Bool) :
    ∀ (edges : List RawNode) (results : List CommentRecord),
      0 < m → results.length < m →
      process_page_edges (some m) min_likes include_replies edges results =
        results ++ (qualifying_records min_likes include_replies edges).take (m - results.length) := by
  intro edges
  induction edges with
  | nil =>
    intro results hm hr
    simp [process_page_edges, qualifying_records]
  | cons node rest ih =>
    intro results hm hr
    simp only [process_page_edges]
    by_cases hq : min_likes ≤ like_count_or_zero (parse_comment_node node include_replies)
    · simp only [if_pos hq]
      have hqual : qualifying_records min_likes include_replies (node :: rest) =
          parse_comment_node node include_replies ::
            qualifying_records min_likes include_replies rest := by
        simp [qualifying_records, List.filter_cons, hq]
      by_cases hc : m ≤ results.length + 1
      · have hm1 : m = results.length + 1 := by omega
        have hcap : cap_reached (some m) (results ++ [parse_comment_node node include_replies]).length = true := by
          rw [cap_reached_some_iff _ _ hm]
          simp
          omega
        rw [if_pos hcap, hqual]
        have htake : m - results.length = 1 := by omega
        rw [htake]
        simp [List.take_succ_cons]
      · have hcap : ¬ cap_reached (some m) (results ++ [parse_comment_node node include_replies]).length = true := by
          rw [cap_reached_some_iff _ _ hm]
          simp
          omega
        rw [if_neg hcap]
        rw [ih (results ++ [parse_comment_node node include_replies]) hm (by simp; omega)]
        rw [hqual]
        have htake : m - results.length = (m - (results.length + 1)) + 1 := by omega
        rw [htake, List.take_succ_cons]
        simp
    · simp only [if_neg hq]
      have hqual : qualifying_records min_likes include_replies (node :: rest) =
          qualifying_records min_likes include_replies rest := by
        simp [qualifying_records, List.filter_cons, hq]
      have hcap : ¬ cap_reached (some m) results.length = true := by
        rw [cap_reached_some_iff _ _ hm]
        omega
      rw [if_neg hcap, ih results hm hr, hqual]

theorem process_page_edges_length_le (m : Nat) (min_likes : Int) (include_replies : Bool)
    (edges : List RawNode) (results : List CommentRecord) (hm : 0 < m)
    (hr : results.length < m) :
    (process_page_edges (some m) min_likes include_replies edges results).length ≤ m := by
  rw [process_page_edges_closed m min_likes include_replies edges results hm hr]
  rw [List.length_append, List.length_take]
  have := Nat.min_le_left (m - results.length)
    (qualifying_records min_likes include_replies edges).length
  omega

theorem fetch_go_length_le (m : Nat) (min_likes : Int) (include_replies : Bool) (hm : 0 < m) :
    ∀ (pages : List GraphqlResponse) (results : List CommentRecord) (requests : Nat),
      results.length < m →
      ((fetch_go (some m) min_likes include_replies pages results requests).1).length ≤ m := by
  intro pages
  induction pages with
  | nil =>
    intro results requests hr
    simpa [fetch_go] using Nat.le_of_lt hr
  | cons resp rest ih =>
    intro results requests hr
    cases hsm : resp.shortcode_media with
    | none =>
      simp only [fetch_go, hsm]
      exact Nat.le_of_lt hr
    | some media =>
      cases hem : media.edge_media_to_parent_comment with
      | none =>
        simp only [fetch_go, hsm, hem]
        exact Nat.le_of_lt hr
      | some edge_info =>
        simp only [fetch_go, hsm, hem]
        have hlen : (process_page_edges (some m) min_likes include_replies
            edge_info.edges results).length ≤ m :=
          process_page_edges_length_le m min_likes include_replies edge_info.edges results hm hr
        split
        · next hguard =>
          apply ih _ (requests + 1)
          rcases Bool.and_eq_true_iff.mp hguard with ⟨_, hcap⟩
          have hcap' : cap_reached (some m) (process_page_edges (some m) min_likes
              include_replies edge_info.edges results).length = false := by
            revert hcap
            cases cap_reached (some m) (process_page_edges (some m) min_likes
              include_replies edge_info.edges results).length <;> simp
          have := (cap_reached_some_iff m (process_page_edges (some m) min_likes
            include_replies edge_info.edges results).length hm)
          rw [hcap'] at this
          simp at this
          omega
        · simpa using hlen

theorem fetch_go_mem (max_comments : Option Nat) (min_likes : Int) (include_replies : Bool) :
    ∀ (pages : List GraphqlResponse) (results : List CommentRecord) (requests : Nat)
      (x : CommentRecord),
      x ∈ (fetch_go max_comments min_likes include_replies pages results requests).1 →
      x ∈ results ∨ min_likes ≤ like_count_or_zero x := by
  intro pages
  induction pages with
  | nil =>
    intro results requests x hx
    exact Or.inl hx
  | cons resp rest ih =>
    intro results requests x hx
    cases hsm : resp.shortcode_media with
    | none =>
      simp only [fetch_go, hsm] at hx
      exact Or.inl hx
    | some media =>
      cases hem : media.edge_media_to_parent_comment with
      | none =>
        simp only [fetch_go, hsm, hem] at hx
        exact Or.inl hx
      | some edge_info =>
        simp only [fetch_go, hsm, hem] at hx
        split at hx
        · rcases ih _ (requests + 1) x hx with hmem | hlike
          · exact mem_process_page_edges max_comments min_likes include_replies
              edge_info.edges results x hmem
          · exact Or.inr hlike
        · exact mem_process_page_edges max_comments min_likes include_replies
            edge_info.edges results x hx

/-- Claim C1 (amended): for every positive configured maximum record count the
sequence returned by the pagination loop has length at most that maximum, and
every record counted toward the cap meets the minimum-likes threshold (the
filter is applied before the cap check, so only qualifying records count). -/
theorem claim_c1_cap_and_filter (m : Nat) (min_likes : Int) (include_replies : Bool)
    (pages : List GraphqlResponse) (hm : 0 < m) :
    ((fetch_parent_comments (some m) min_likes include_replies pages).1).length ≤ m
    ∧ ∀ x ∈ (fetch_parent_comments (some m) min_likes include_replies pages).1,
        min_likes ≤ like_count_or_zero x := by
  constructor
  · exact fetch_go_length_le m min_likes include_replies hm pages [] 0 hm
  · intro x hx
    rcases fetch_go_mem (some m) min_likes include_replies pages [] 0 x hx with h | h
    · exact absurd h (List.not_mem_nil x)
    · exact h

/-- Witness for the amended C1 at maximum 1 and a concrete one-node page. -/
theorem claim_c1_cap_and_filter_witness :
    ((fetch_parent_comments (some 1) 0 false [capless_page]).1).length ≤ 1 :=
  (claim_c1_cap_and_filter 1 0 false [capless_page] (by decide)).1

/-- Counterexample to C1 as stated: with the configured maximum record count
`0` the cap guard `max_comments and len(results) >= max_comments` is never
truthy, so a page with one qualifying node yields a sequence of length 1 > 0. -/
theorem claim_c1_counterexample :
    ¬ ((fetch_parent_comments (some 0) 0 false [capless_page]).1.length ≤ 0) := by
  decide

/-- Claim C2: a record appears in the result of the pagination loop only if
its like count (absent treated as zero) is at least the threshold; in
particular a record with an absent like count can appear only when the
threshold is non-positive. -/
theorem claim_c2_min_likes (max_comments : Option Nat) (min_likes : Int)
    (include_replies : Bool) (pages : List GraphqlResponse) (x : CommentRecord)
    (hx : x ∈ (fetch_parent_comments max_comments min_likes include_replies pages).1) :
    min_likes ≤ like_count_or_zero x ∧ (x.like_count = none → min_likes ≤ 0) := by
  rcases fetch_go_mem max_comments min_likes include_replies pages [] 0 x hx with h | h
  · exact absurd h (List.not_mem_nil x)
  · refine ⟨h, fun hn => ?_⟩
    rw [like_count_or_zero, hn] at h
    simpa using h

/-- Witness for C2: the parsed `sample_node` (2 likes) is in the result of a
run with threshold 1, so its like count is at least 1. -/
theorem claim_c2_min_likes_witness :
    (1 : Int) ≤ like_count_or_zero (parse_comment_node sample_node false)
    ∧ ((parse_comment_node sample_node false).like_count = none → (1 : Int) ≤ 0) :=
  claim_c2_min_likes none 1 false [mk_page [sample_node] false none]
    (parse_comment_node sample_node false) (by decide)

/-- Claim C3: a missing comments container (falsy `shortcode_media`) or a
structural `KeyError` (absent `edge_media_to_parent_comment`) terminates the
pagination loop and returns exactly the records already collected, issuing no
further request; when it happens on the first request the result is empty. -/
theorem claim_c3_structural_stop (max_comments : Option Nat) (min_likes : Int)
    (include_replies : Bool) (resp : GraphqlResponse) (rest : List GraphqlResponse)
    (results : List CommentRecord) (requests : Nat)
    (h : resp.shortcode_media = none ∨
      ∃ media, resp.shortcode_media = some media ∧
        media.edge_media_to_parent_comment = none) :
    fetch_go max_comments min_likes include_replies (resp :: rest) results requests
      = (results, requests + 1)
    ∧ fetch_parent_comments max_comments min_likes include_replies (resp :: rest)
      = ([], 1) := by
  have hgen : ∀ (res : List CommentRecord) (req : Nat),
      fetch_go max_comments min_likes include_replies (resp :: rest) res req
        = (res, req + 1) := by
    intro res req
    rcases h with h | ⟨media, hmedia, hedge⟩
    · simp [fetch_go, h]
    · simp [fetch_go, hmedia, hedge]
  exact ⟨hgen results requests, hgen [] 0⟩

/-- Witness for C3: a first-response missing container yields the empty
result, and mid-run the already-collected records are returned unchanged. -/
theorem claim_c3_structural_stop_witness :
    fetch_go none 0 false [missing_page] [sample_a] 3 = ([sample_a], 4)
    ∧ fetch_parent_comments none 0 false [missing_page] = ([], 1) :=
  claim_c3_structural_stop none 0 false missing_page [] [sample_a] 3 (Or.inl rfl)

/-- Claim C4: when a positive configured maximum is reached while processing a
page with at least that many qualifying nodes, the loop stops immediately:
the result is exactly the first `m` qualifying records of that page (the
remaining nodes are discarded), its length is exactly `m`, and exactly one
page request is issued no matter what responses would follow. -/
theorem claim_c4_cap_midpage (m : Nat) (min_likes : Int) (include_replies : Bool)
    (edges : List RawNode) (has_next : Bool) (cursor : Option String)
    (rest : List GraphqlResponse) (hm : 0 < m)
    (hq : m ≤ (qualifying_records min_likes include_replies edges).length) :
    fetch_parent_comments (some m) min_likes include_replies
        (mk_page edges has_next cursor :: rest)
      = ((qualifying_records min_likes include_replies edges).take m, 1)
    ∧ ((fetch_parent_comments (some m) min_likes include_replies
        (mk_page edges has_next cursor :: rest)).1).length = m := by
  have hproc : process_page_edges (some m) min_likes include_replies edges [] =
      (qualifying_records min_likes include_replies edges).take m := by
    have h := process_page_edges_closed m min_likes include_replies edges [] hm
      (by simpa using hm)
    simpa using h
  have hlen : ((qualifying_records min_likes include_replies edges).take m).length = m := by
    rw [List.length_take]
    omega
  have hcap : cap_reached (some m)
      ((qualifying_records min_likes include_replies edges).take m).length = true := by
    rw [cap_reached_some_iff _ _ hm, hlen]
  have hmain : fetch_parent_comments (some m) min_likes include_replies
      (mk_page edges has_next cursor :: rest)
      = ((qualifying_records min_likes include_replies edges).take m, 1) := by
    show fetch_go (some m) min_likes include_replies
        (mk_page edges has_next cursor :: rest) [] 0
      = ((qualifying_records min_likes include_replies edges).take m, 1)
    simp only [fetch_go, mk_page, hproc, hcap]
    simp
  exact ⟨hmain, by rw [hmain]; exact hlen⟩

/-- Witness for C4: maximum 1, a page with two qualifying nodes followed by a
further page; exactly one record is returned after one request. -/
theorem claim_c4_cap_midpage_witness :
    fetch_parent_comments (some 1) 0 false
        (mk_page [sample_node, sample_node] true none :: [mk_page [sample_node] true none])
      = ((qualifying_records 0 false [sample_node, sample_node]).take 1, 1)
    ∧ ((fetch_parent_comments (some 1) 0 false
        (mk_page [sample_node, sample_node] true none
          :: [mk_page [sample_node] true none])).1).length = 1 :=
  claim_c4_cap_midpage 1 0 false [sample_node, sample_node] true none
    [mk_page [sample_node] true none] (by decide) (by decide)

/-- Counterexample to C5 as stated: the runtime/network class and the
output-write I/O class are distinct failure classes but share exit status 1
(`sys.exit(1)` at lines 62/67 and at line 393), so the three classes do not
map to pairwise distinct exit statuses. -/
theorem claim_c5_counterexample :
    class_exit_code FailureClass.runtimeNetwork = class_exit_code FailureClass.outputWrite
    ∧ FailureClass.runtimeNetwork ≠ FailureClass.outputWrite := by
  exact ⟨rfl, by decide⟩

/-- Claim C5 (amended): invalid input/configuration failures exit with status
2, distinct from the other two classes; runtime/network failures and
output-write failures both exit with status 1, so a scripted caller can
distinguish the invalid-input class but not runtime/network from I/O. -/
theorem claim_c5_exit_codes :
    class_exit_code FailureClass.invalidInput = 2
    ∧ class_exit_code FailureClass.runtimeNetwork = 1
    ∧ class_exit_code FailureClass.outputWrite = 1
    ∧ class_exit_code FailureClass.invalidInput ≠ class_exit_code FailureClass.runtimeNetwork
    ∧ class_exit_code FailureClass.invalidInput ≠ class_exit_code FailureClass.outputWrite
    ∧ invalid_url_exit_code = missing_env_exit_code
    ∧ http_error_exit_code = non_json_exit_code
    ∧ non_json_exit_code = write_failure_exit_code
    ∧ class_exit_code FailureClass.runtimeNetwork = class_exit_code FailureClass.outputWrite := by
  decide

/-- Claim C8: the final username projection is sorted in case-insensitive
ascending lexicographic order, with deduplication enabled or disabled. -/
theorem claim_c8_usernames_sorted (dedupe : Bool) (comments : List CommentRecord) :
    (usernames_payload dedupe comments).Pairwise (fun a b => a.toLower ≤ b.toLower) := by
  have htrans : ∀ a b c : String, username_le a b → username_le b c → username_le a c := by
    intro a b c hab hbc
    simp only [username_le, decide_eq_true_eq] at hab hbc ⊢
    exact le_trans hab hbc
  have htotal : ∀ a b : String, username_le a b || username_le b a := by
    intro a b
    simp only [username_le, Bool.or_eq_true, decide_eq_true_eq]
    exact le_total _ _
  have h := List.sorted_mergeSort htrans htotal
    (if dedupe then to_usernames comments else usernames_with_duplicates comments)
  unfold usernames_payload
  refine h.imp ?_
  intro a b hab
  simpa only [username_le, decide_eq_true_eq] using hab

theorem newline_to_space_no_newline (s : String) :
    ∀ ch ∈ (newline_to_space s).data, ch ≠ '\n' := by
  intro ch hch
  have hmap : ch ∈ s.data.map (fun c => if c = '\n' then ' ' else c) := hch
  obtain ⟨orig, _, horig⟩ := List.mem_map.mp hmap
  by_cases ho : orig = '\n'
  · rw [if_pos ho] at horig
    rw [← horig]
    decide
  · rw [if_neg ho] at horig
    rw [← horig]
    exact ho

/-- A record whose text is the spec scenario string with an embedded newline. -/
def sample_hello : CommentRecord :=
  { id := none, username := none, text := some "hello\nworld"
    like_count := none, created_at := none, replies := none }

/-- Claim C9: in a detailed CSV row the text cell never contains a newline
(every newline was replaced by a space, then the cell was trimmed), an absent
text serializes as the empty string, the `reply_count` cell equals the length
of the replies list (0 when absent), and the spec scenario
`"hello\nworld" ↦ "hello world"` holds. -/
theorem claim_c9_csv_cells (c : CommentRecord) :
    (∀ ch ∈ (csv_text_cell c).data, ch ≠ '\n')
    ∧ csv_reply_count c = (c.replies.getD []).length
    ∧ (c.text = none → csv_text_cell c = "")
    ∧ csv_text_cell sample_hello = "hello world" := by
  refine ⟨?_, ?_, ?_, by decide⟩
  · intro ch hch
    have h1 : ch ∈ (((newline_to_space (c.text.getD "")).data.dropWhile
        py_space).reverse.dropWhile py_space).reverse := hch
    rw [List.mem_reverse] at h1
    have h2 := (List.dropWhile_sublist py_space).subset h1
    rw [List.mem_reverse] at h2
    have h3 := (List.dropWhile_sublist py_space).subset h2
    exact newline_to_space_no_newline (c.text.getD "") ch h3
  · cases hre : c.replies with
    | none => simp [csv_reply_count, hre]
    | some rs => simp [csv_reply_count, hre]
  · intro h
    show py_strip (newline_to_space (c.text.getD "")) = ""
    rw [h]
    decide

/-- Witness for C9: the id-less sample record has no text, and its CSV text
cell is the empty string. -/
theorem claim_c9_csv_cells_witness :
    csv_text_cell sample_no_id = "" :=
  (claim_c9_csv_cells sample_no_id).2.2.1 rfl
